import Mathlib

/-!
# Interval domain of the interval range pass (`Interval.cpp`)

A shallow embedding of the interval abstraction used by the range analysis:
an interval is a `std::pair<int, int>`, the two infinities are encoded as
the extreme values of `int`.

Conventions of the embedding.

* A C++ `int` is an `Int`; the values a program can hold are those
  satisfying `isInt`.  The results of `+`, `-` and `*` on `int` are
  reduced to the 32-bit two's complement range by `wrap`.
* The `int` division `x / y` is `idiv`: it has no result (`none`) when the
  divisor is zero or when the quotient is not representable
  (`minf / -1`); otherwise it truncates toward zero.
* A `double` is a `Dbl`: an exact dyadic value, an infinity or a NaN, with
  correctly rounded (nearest, ties to even, 53 bit) multiplication and
  division.
-/

namespace interval

/-! ## Machine integers -/

/-- Modelled from the spec: the constant `minf` of `Interval.h`, a header
that is not among the sources.  It is the NEG_INF sentinel, the smallest
value of the (32-bit) machine integer type `int`. -/
def minf : Int := -2147483648

/-- Modelled from the spec: the constant `pinf` of `Interval.h`, a header
that is not among the sources.  It is the POS_INF sentinel, the largest
value of the (32-bit) machine integer type `int`. -/
def pinf : Int := 2147483647

/-- The values of the machine type `int`. -/
def isInt (x : Int) : Prop := minf ≤ x ∧ x ≤ pinf

instance (x : Int) : Decidable (isInt x) := by
  unfold isInt; infer_instance

/-- Reduction of a mathematical integer to the 32-bit two's complement
range: the value an `int` computation leaves in a register. -/
def wrap (x : Int) : Int := (x + 2147483648) % 4294967296 - 2147483648

/-- The `int` division `x / y`: truncation toward zero; no result for a
zero divisor or for the unrepresentable quotient `minf / -1`. -/
def idiv (x y : Int) : Option Int :=
  if y = 0 then none
  else if x = minf ∧ y = -1 then none
  else some (Int.tdiv x y)

/-! ## Intervals -/

/-- The type `Interval` of `Interval.h`: `std::pair<int, int>`. -/
abbrev Interval := Int × Int

/-- Source: `interval::make`. -/
def make (l r : Int) : Interval := (l, r)

/-- Source: `interval::lower`. -/
def lower (i : Interval) : Int := i.1

/-- Source: `interval::upper`. -/
def upper (i : Interval) : Int := i.2

/-- Source: `interval::full`. -/
def full : Interval := make minf pinf

/-- Source: `interval::empty`. -/
def empty : Interval := make pinf minf

/-- Source: `interval::unit`. -/
def unit : Interval := make 0 1

/-- Source: `interval::operator==`, the deep equality of intervals. -/
def equal (l r : Interval) : Bool :=
  decide (lower l = lower r) && decide (upper l = upper r)

/-- Source: `interval::operator!=`. -/
def notEqual (l r : Interval) : Bool := !(equal l r)

/-- Source: `interval::lub`. -/
def lub (l r : Interval) : Interval :=
  if equal l full then full
  else if equal l empty then r
  else if lower l = minf ∧ upper r = pinf then full
  else if lower l = minf then make minf (max (upper l) (upper r))
  else if upper l = pinf then make (min (lower l) (lower r)) pinf
  else make (min (lower l) (lower r)) (max (upper l) (upper r))

/-- Source: `interval::neg`.  The unary minus of `int` is `wrap (-x)`. -/
def neg (i : Interval) : Interval :=
  if minf = lower i ∧ pinf = upper i then full
  else if pinf = lower i ∧ minf = upper i then empty
  else if minf = lower i ∧ minf = upper i then make pinf pinf
  else if pinf = lower i ∧ pinf = upper i then make minf minf
  else if pinf = upper i then make minf (wrap (-(lower i)))
  else if minf = lower i then make (wrap (-(upper i))) pinf
  else make (min (wrap (-(upper i))) (wrap (-(lower i))))
            (max (wrap (-(upper i))) (wrap (-(lower i))))

/-- Source: `checkOverflowAdd`. -/
def checkOverflowAdd (x y : Int) : Int :=
  if x < 0 ∧ y < 0 then
    if y ≤ wrap (minf - x) then minf else wrap (x + y)
  else if x > 0 ∧ y > 0 then
    if y ≥ wrap (pinf - x) then pinf else wrap (x + y)
  else wrap (x + y)

/-- Source: `interval::add`. -/
def add (l r : Interval) : Interval :=
  if (lower l = pinf ∧ upper l = minf) ∨ (lower r = pinf ∧ upper r = minf) then
    make pinf minf
  else
    let low :=
      if minf = lower l ∨ minf = lower r then minf
      else if pinf = lower l ∨ pinf = lower r then pinf
      else checkOverflowAdd (lower l) (lower r)
    let up :=
      if pinf = upper l ∨ pinf = upper r then pinf
      else if minf = upper l ∨ minf = upper r then minf
      else checkOverflowAdd (upper l) (upper r)
    make low up

/-- Source: `interval::sub`. -/
def sub (l r : Interval) : Interval := add l (neg r)

/-- Source: `mulOverflow`.  The two sentinel quotients are `int`
divisions, so the function has a result only when they have one. -/
def mulOverflow (x y : Int) : Option Int :=
  if x > 0 ∧ y > 0 then
    (idiv pinf x).bind fun k =>
      if y > k then some pinf else some (wrap (x * y))
  else if x < 0 ∧ y < 0 then
    if x = minf ∨ y = minf then some pinf
    else
      (idiv pinf x).bind fun k =>
        if y < k then some pinf else some (wrap (x * y))
  else if x < 0 ∧ y > 0 then
    (idiv minf x).bind fun k =>
      if y > k then some minf else some (wrap (x * y))
  else if x > 0 ∧ y < 0 then
    (idiv minf y).bind fun k =>
      if x > k then some minf else some (wrap (x * y))
  else some (wrap (x * y))

/-- Source: `interval::mul`. -/
def mul (l r : Interval) : Option Interval :=
  if (lower l = pinf ∧ upper l = minf) ∨ (lower r = pinf ∧ upper r = minf) then
    some (make pinf minf)
  else
    (mulOverflow (lower l) (lower r)).bind fun ll =>
    (mulOverflow (lower l) (upper r)).bind fun lu =>
    (mulOverflow (upper l) (lower r)).bind fun ul =>
    (mulOverflow (upper l) (upper r)).bind fun uu =>
      some (make (min (min ll lu) (min ul uu)) (max (max ll lu) (max ul uu)))

/-! ## Doubles

`mulD` and three branches of `div` compute in `double`.  A finite double is
the dyadic value `m * 2^e`; arithmetic results are rounded to the nearest
double (53 significant bits, ties to even, exponent range of binary64).
The sign of a zero is not represented: the only division of the program is
`1.0 / x` for an `int` `x`, whose zero converts to `+0.0`, and no other
operation used here distinguishes the two zeros. -/

/-- A value of the type `double`. -/
inductive Dbl where
  | fin (m : Int) (e : Int)
  | inf (negative : Bool)
  | nan

/-- The quotient `n / d` rounded to the nearest natural number, ties to the
even one. -/
def Dbl.nearestEven (n d : Nat) : Nat :=
  let q := n / d
  let r := n % d
  if 2 * r < d then q
  else if d < 2 * r then q + 1
  else if q % 2 = 0 then q else q + 1

/-- Halving `n` until it is below 2, counting the steps (at most `fuel`). -/
def Dbl.log2Aux : Nat → Nat → Nat
  | 0, _ => 0
  | fuel + 1, n => if n < 2 then 0 else Dbl.log2Aux fuel (n / 2) + 1

/-- The integer part of the binary logarithm of a positive natural number. -/
def Dbl.log2 (n : Nat) : Nat := Dbl.log2Aux n n

/-- The integer part of the binary logarithm of `n / d` (for positive
`n`, `d`). -/
def Dbl.floorLog2 (n d : Nat) : Int :=
  let t : Int := (Dbl.log2 n : Int) - (Dbl.log2 d : Int)
  if 0 ≤ t then
    if d * 2 ^ t.toNat ≤ n then t else t - 1
  else
    if d ≤ n * 2 ^ (-t).toNat then t else t - 1

/-- The double nearest to the rational `± n / d` (for positive `d`):
53 significant bits, least exponent `-1074`, overflow to an infinity. -/
def Dbl.ofRatio (negative : Bool) (n d : Nat) : Dbl :=
  if n = 0 then Dbl.fin 0 0
  else
    let e : Int := max (Dbl.floorLog2 n d - 52) (-1074)
    let m : Nat :=
      if 0 ≤ e then Dbl.nearestEven n (d * 2 ^ e.toNat)
      else Dbl.nearestEven (n * 2 ^ (-e).toNat) d
    if 971 < e ∨ (e = 971 ∧ 2 ^ 53 ≤ m) then Dbl.inf negative
    else Dbl.fin (if negative then -(m : Int) else (m : Int)) e

/-- The conversion of an `int` to `double`. -/
def Dbl.ofInt (n : Int) : Dbl := Dbl.ofRatio (decide (n < 0)) n.natAbs 1

/-- The product of two doubles. -/
def Dbl.fmul : Dbl → Dbl → Dbl
  | Dbl.nan, _ => Dbl.nan
  | _, Dbl.nan => Dbl.nan
  | Dbl.inf s, Dbl.inf t => Dbl.inf (xor s t)
  | Dbl.inf s, Dbl.fin m _ => if m = 0 then Dbl.nan else Dbl.inf (xor s (decide (m < 0)))
  | Dbl.fin m _, Dbl.inf s => if m = 0 then Dbl.nan else Dbl.inf (xor (decide (m < 0)) s)
  | Dbl.fin m1 e1, Dbl.fin m2 e2 =>
    let s := xor (decide (m1 < 0)) (decide (m2 < 0))
    let n := m1.natAbs * m2.natAbs
    let e := e1 + e2
    if 0 ≤ e then Dbl.ofRatio s (n * 2 ^ e.toNat) 1
    else Dbl.ofRatio s n (2 ^ (-e).toNat)

/-- The quotient of two doubles; a zero divisor is `+0.0`. -/
def Dbl.fdiv : Dbl → Dbl → Dbl
  | Dbl.nan, _ => Dbl.nan
  | _, Dbl.nan => Dbl.nan
  | Dbl.inf _, Dbl.inf _ => Dbl.nan
  | Dbl.inf s, Dbl.fin m _ => Dbl.inf (xor s (decide (m < 0)))
  | Dbl.fin _ _, Dbl.inf _ => Dbl.fin 0 0
  | Dbl.fin m1 e1, Dbl.fin m2 e2 =>
    if m2 = 0 then
      if m1 = 0 then Dbl.nan else Dbl.inf (decide (m1 < 0))
    else
      let s := xor (decide (m1 < 0)) (decide (m2 < 0))
      let e := e1 - e2
      if 0 ≤ e then Dbl.ofRatio s (m1.natAbs * 2 ^ e.toNat) m2.natAbs
      else Dbl.ofRatio s m1.natAbs (m2.natAbs * 2 ^ (-e).toNat)

/-- The comparison `a < b` of doubles (false when a NaN is involved). -/
def Dbl.flt : Dbl → Dbl → Bool
  | Dbl.nan, _ => false
  | _, Dbl.nan => false
  | Dbl.inf s, Dbl.inf t => s && !t
  | Dbl.inf s, Dbl.fin _ _ => s
  | Dbl.fin _ _, Dbl.inf t => !t
  | Dbl.fin m1 e1, Dbl.fin m2 e2 =>
    let e := min e1 e2
    decide (m1 * 2 ^ (e1 - e).toNat < m2 * 2 ^ (e2 - e).toNat)

/-- The library function `std::min(a, b)`: `(b < a) ? b : a`. -/
def Dbl.fmin (a b : Dbl) : Dbl := if Dbl.flt b a then b else a

/-- The library function `std::max(a, b)`: `(a < b) ? b : a`. -/
def Dbl.fmax (a b : Dbl) : Dbl := if Dbl.flt a b then b else a

/-- The library function `std::round`: the nearest integral value, halfway
cases away from zero. -/
def Dbl.fround : Dbl → Dbl
  | Dbl.fin m e =>
    if 0 ≤ e then Dbl.fin m e
    else
      let d : Nat := 2 ^ (-e).toNat
      let q : Nat := (2 * m.natAbs + d) / (2 * d)
      Dbl.fin (if m < 0 then -(q : Int) else (q : Int)) 0
  | x => x

/-- The conversion of a `double` to `int` (truncation); it has a result
only for a finite value inside the `int` range. -/
def Dbl.toInt : Dbl → Option Int
  | Dbl.fin m e =>
    let v : Int := if 0 ≤ e then m * 2 ^ e.toNat else Int.tdiv m (2 ^ (-e).toNat)
    if minf ≤ v ∧ v ≤ pinf then some v else none
  | _ => none

/-- Source: `mulD`.  The initial conversions `int low = lowD, up = upD` are
overwritten by the two clamping tests whenever the double lies outside the
`int` range, so a bound is converted only when neither test fires. -/
def mulD (l : Interval) (d : Dbl × Dbl) : Option Interval :=
  let lr1 := Dbl.fmul (Dbl.ofInt (lower l)) d.1
  let lr2 := Dbl.fmul (Dbl.ofInt (lower l)) d.2
  let lr3 := Dbl.fmul (Dbl.ofInt (upper l)) d.1
  let lr4 := Dbl.fmul (Dbl.ofInt (upper l)) d.2
  let lowD := Dbl.fround (Dbl.fmin (Dbl.fmin lr1 lr2) (Dbl.fmin lr3 lr4))
  let upD := Dbl.fround (Dbl.fmax (Dbl.fmax lr1 lr2) (Dbl.fmax lr3 lr4))
  let low : Option Int :=
    if Dbl.flt lowD (Dbl.ofInt minf) then some minf
    else if Dbl.flt (Dbl.ofInt pinf) lowD then some pinf
    else Dbl.toInt lowD
  let up : Option Int :=
    if Dbl.flt upD (Dbl.ofInt minf) then some minf
    else if Dbl.flt (Dbl.ofInt pinf) upD then some pinf
    else Dbl.toInt upD
  low.bind fun lo => up.bind fun hi => some (make lo hi)

/-- Source: `interval::div`.  The literal `1.0` is `Dbl.ofInt 1`. -/
def div (l r : Interval) : Option Interval :=
  if (lower l = pinf ∧ upper l = minf) ∨ (lower r = pinf ∧ upper r = minf) then
    some (make pinf minf)
  else if (lower r < 0 ∧ upper r < 0) ∨ (lower r > 0 ∧ upper r > 0) then
    mulD l (Dbl.fdiv (Dbl.ofInt 1) (Dbl.ofInt (upper r)),
            Dbl.fdiv (Dbl.ofInt 1) (Dbl.ofInt (lower r)))
  else if upper r = 0 then
    mulD l (Dbl.ofInt minf, Dbl.fdiv (Dbl.ofInt 1) (Dbl.ofInt (lower r)))
  else if lower r = 0 then
    mulD l (Dbl.fdiv (Dbl.ofInt 1) (Dbl.ofInt (upper r)), Dbl.ofInt pinf)
  else mul l (make minf pinf)

/-! ## Comparisons -/

/-- Source: `interval::lt`. -/
def lt (l r : Interval) : Interval :=
  if (lower l = pinf ∧ upper l = minf) ∨ (lower r = pinf ∧ upper r = minf) then unit
  else if upper l < lower r then make 1 1
  else if lower l > upper r then make 0 0
  else unit

/-- Source: `interval::gt`. -/
def gt (l r : Interval) : Interval :=
  if (lower l = pinf ∧ upper l = minf) ∨ (lower r = pinf ∧ upper r = minf) then unit
  else if upper l < lower r then make 0 0
  else if lower l > upper r then make 1 1
  else unit

/-- Source: `interval::eq`. -/
def eq (l r : Interval) : Interval :=
  if lower l = pinf ∨ lower l = minf then unit
  else if lower r = pinf ∨ lower r = minf then unit
  else if upper l = pinf ∨ upper l = minf then unit
  else if upper r = pinf ∨ upper r = minf then unit
  else if lower l = lower r ∧ upper l = upper r ∧ lower l = upper l then make 1 1
  else if upper l < lower r ∨ lower l > upper r then make 0 0
  else unit

/-- Source: `interval::ne`. -/
def ne (l r : Interval) : Interval :=
  if lower l = pinf ∨ lower l = minf then unit
  else if lower r = pinf ∨ lower r = minf then unit
  else if upper l = pinf ∨ upper l = minf then unit
  else if upper r = pinf ∨ upper r = minf then unit
  else if lower l = lower r ∧ upper l = upper r ∧ lower l = upper l then make 0 0
  else if upper l < lower r ∨ lower l > upper r then make 1 1
  else unit

/-! ## Vocabulary of the properties -/

/-- A pair of machine integers: what a value of type `Interval` can be. -/
def isInterval (i : Interval) : Prop := isInt (lower i) ∧ isInt (upper i)

/-- A finite bound: a machine integer that is neither sentinel. -/
def isFinite (x : Int) : Prop := minf < x ∧ x < pinf

instance (x : Int) : Decidable (isFinite x) := by
  unfold isFinite; infer_instance

instance (i : Interval) : Decidable (isInterval i) := by
  unfold isInterval; infer_instance

/-- A well-formed interval: bottom, or lower bound at most the upper bound. -/
def wellFormed (i : Interval) : Prop := i = empty ∨ lower i ≤ upper i

instance (i : Interval) : Decidable (wellFormed i) := by
  unfold wellFormed; infer_instance

/-- The saturation of a mathematical integer, worded as the specification
does: the value itself strictly between the sentinels, else the nearer
sentinel. -/
def specSat (z : Int) : Int :=
  if pinf ≤ z then pinf else if z ≤ minf then minf else z

/-- Interval inclusion, worded as the specification does: bottom is
included in every interval; any other interval is included in those whose
lower bound is not above its own and whose upper bound is not below. -/
def included (x y : Interval) : Prop :=
  x = empty ∨ (lower y ≤ lower x ∧ upper x ≤ upper y)

instance (x y : Interval) : Decidable (included x y) := by
  unfold included; infer_instance

/-- The operand pairs at which `mulOverflow` evaluates the quotient
`minf / -1`: `-1` paired with a positive value. -/
def faults (x y : Int) : Prop := (x = -1 ∧ 0 < y) ∨ (0 < x ∧ y = -1)

instance (x y : Int) : Decidable (faults x y) := by
  unfold faults; infer_instance

/-! ## Rendering -/

/-- Source: `istr`. -/
def istr (b : Int) : String :=
  if b = minf then "-inf"
  else if b = pinf then "+inf"
  else toString b

/-- Source: `interval::str`. -/
def str (i : Interval) : String :=
  "[" ++ istr (lower i) ++ "," ++ istr (upper i) ++ "]"

/-! ## Basic facts -/

theorem equal_iff (l r : Interval) : equal l r = true ↔ l = r := by
  obtain ⟨a, b⟩ := l
  obtain ⟨c, d⟩ := r
  simp [equal, lower, upper]

theorem wrap_of_isInt {x : Int} (h : isInt x) : wrap x = x := by
  unfold isInt minf pinf at h
  unfold wrap
  omega

/-! ## Join -/

/-- C1: joining bottom with `r` gives `r`, and joining top with `r` gives
top, for every interval `r`. -/
theorem C1_lub_empty_full (r : Interval) :
    lub empty r = r ∧ lub full r = full := by
  constructor
  · have h1 : equal empty full = false := by decide
    have h2 : equal empty empty = true := by decide
    simp [lub, h1, h2]
  · have h1 : equal full full = true := by decide
    simp [lub, h1]

/-! ## Bottom is absorbing for the arithmetic -/

/-- C2: when either operand is bottom, `add`, `mul` and `div` all return
bottom. -/
theorem C2_empty_absorbing (l r : Interval) (h : l = empty ∨ r = empty) :
    add l r = empty ∧ mul l r = some empty ∧ div l r = some empty := by
  have hc : (lower l = pinf ∧ upper l = minf) ∨ (lower r = pinf ∧ upper r = minf) := by
    rcases h with h | h
    · left; subst h; exact ⟨rfl, rfl⟩
    · right; subst h; exact ⟨rfl, rfl⟩
  refine ⟨?_, ?_, ?_⟩
  · simp only [add, if_pos hc]; rfl
  · simp only [mul, if_pos hc]; rfl
  · simp only [div, if_pos hc]; rfl

/-- Witness of C2 at `l = empty`, `r = make 1 2`. -/
theorem C2_empty_absorbing_witness :
    (empty = empty ∨ make 1 2 = empty) ∧
    (add empty (make 1 2) = empty ∧ mul empty (make 1 2) = some empty ∧
      div empty (make 1 2) = some empty) :=
  ⟨Or.inl rfl, C2_empty_absorbing empty (make 1 2) (Or.inl rfl)⟩

/-! ## Negation -/

/-- The negation of a finite singleton, when the negated value is not the
POS_INF sentinel. -/
theorem neg_singleton {x : Int} (h1 : minf + 1 < x) (h2 : x < pinf) :
    neg (make x x) = make (-x) (-x) := by
  unfold minf at h1
  unfold pinf at h2
  have hw : wrap (-x) = -x := by unfold wrap; omega
  have e1 : ¬ (minf = x) := by unfold minf; omega
  have e2 : ¬ (pinf = x) := by unfold pinf; omega
  simp [neg, lower, upper, make, hw, e1, e2]

/-- C3 (as amended): double negation gives back a finite singleton
`make x x` whenever `x` is neither a sentinel nor `minf + 1`, the one finite
value whose negation is the POS_INF sentinel. -/
theorem C3_neg_involution (x : Int) (hx : isFinite x) (h : x ≠ minf + 1) :
    neg (neg (make x x)) = make x x := by
  obtain ⟨h1, h2⟩ := hx
  have h3 : minf + 1 < x := by unfold minf at *; omega
  rw [neg_singleton h3 h2]
  have h4 : minf + 1 < -x := by unfold minf pinf at *; omega
  have h5 : -x < pinf := by unfold minf pinf at *; omega
  rw [neg_singleton h4 h5, neg_neg]

/-- Witness of C3 at `x = 5`. -/
theorem C3_neg_involution_witness :
    isFinite 5 ∧ (5 : Int) ≠ minf + 1 ∧ neg (neg (make 5 5)) = make 5 5 :=
  ⟨by decide, by decide, C3_neg_involution 5 (by decide) (by decide)⟩

/-- C3 fails as stated: `-2147483647` is finite, its negation is the
POS_INF sentinel, and negating twice yields `(minf, minf)`. -/
theorem C3_counterexample :
    isFinite (-2147483647) ∧
    neg (make (-2147483647) (-2147483647)) = make pinf pinf ∧
    neg (neg (make (-2147483647) (-2147483647))) = make minf minf ∧
    neg (neg (make (-2147483647) (-2147483647))) ≠
      make (-2147483647) (-2147483647) := by
  decide

/-! ## Addition -/

/-- The overflow-checked addition computes the saturated sum. -/
theorem checkOverflowAdd_eq_specSat {x y : Int} (hx : isInt x) (hy : isInt y) :
    checkOverflowAdd x y = specSat (x + y) := by
  unfold isInt minf pinf at hx hy
  unfold checkOverflowAdd specSat wrap minf pinf
  split_ifs <;> omega

/-- C4: `checkOverflowAdd` returns the exact sum strictly between the
sentinels and the nearer sentinel otherwise; `add` on non-bottom intervals
with finite bounds saturates both bounds; adding `(pinf-1, pinf-1)` to
itself has upper bound `pinf`. -/
theorem C4_add_saturates (x y : Int) (l r : Interval) :
    (isInt x → isInt y →
      (minf < x + y ∧ x + y < pinf → checkOverflowAdd x y = x + y) ∧
      (pinf ≤ x + y → checkOverflowAdd x y = pinf) ∧
      (x + y ≤ minf → checkOverflowAdd x y = minf)) ∧
    (l ≠ empty → r ≠ empty →
      isFinite (lower l) → isFinite (upper l) →
      isFinite (lower r) → isFinite (upper r) →
      add l r = make (specSat (lower l + lower r)) (specSat (upper l + upper r))) ∧
    upper (add (make (pinf - 1) (pinf - 1)) (make (pinf - 1) (pinf - 1))) = pinf := by
  refine ⟨?_, ?_, by decide⟩
  · intro hx hy
    rw [checkOverflowAdd_eq_specSat hx hy]
    unfold specSat minf pinf
    refine ⟨?_, ?_, ?_⟩ <;> intro h <;> split_ifs <;> omega
  · intro _ _ hll hlu hrl hru
    have ill : isInt (lower l) := ⟨le_of_lt hll.1, le_of_lt hll.2⟩
    have ilu : isInt (upper l) := ⟨le_of_lt hlu.1, le_of_lt hlu.2⟩
    have irl : isInt (lower r) := ⟨le_of_lt hrl.1, le_of_lt hrl.2⟩
    have iru : isInt (upper r) := ⟨le_of_lt hru.1, le_of_lt hru.2⟩
    have n1 : ¬ (lower l = pinf) := ne_of_lt hll.2
    have n2 : ¬ (minf = lower l) := ne_of_lt hll.1
    have n3 : ¬ (pinf = lower l) := fun h => n1 h.symm
    have n4 : ¬ (minf = lower r) := ne_of_lt hrl.1
    have n5 : ¬ (lower r = pinf) := ne_of_lt hrl.2
    have n6 : ¬ (pinf = lower r) := fun h => n5 h.symm
    have n7 : ¬ (pinf = upper l) := fun h => (ne_of_lt hlu.2) h.symm
    have n8 : ¬ (minf = upper l) := ne_of_lt hlu.1
    have n9 : ¬ (pinf = upper r) := fun h => (ne_of_lt hru.2) h.symm
    have n10 : ¬ (minf = upper r) := ne_of_lt hru.1
    simp only [add, n1, n2, n3, n4, n5, n6, n7, n8, n9, n10, false_and, or_self,
      if_false, checkOverflowAdd_eq_specSat ill irl, checkOverflowAdd_eq_specSat ilu iru]

/-- Witness of C4 at `x = 5`, `y = 7`, `l = (1, 2)`, `r = (3, 4)`. -/
theorem C4_add_saturates_witness :
    checkOverflowAdd 5 7 = 5 + 7 ∧
    add (make 1 2) (make 3 4) = make (specSat (1 + 3)) (specSat (2 + 4)) :=
  ⟨((C4_add_saturates 5 7 (make 1 2) (make 3 4)).1 (by decide) (by decide)).1
      (by decide),
   (C4_add_saturates 5 7 (make 1 2) (make 3 4)).2.1 (by decide) (by decide)
      (by decide) (by decide) (by decide) (by decide)⟩

/-! ## Multiplication -/

theorem tdiv_of_pos {a x : Int} (ha : 0 ≤ a) (hx : 0 < x) :
    Int.tdiv a x = a / x :=
  Int.tdiv_eq_ediv ha (le_of_lt hx)

theorem tdiv_nonneg_neg {a x : Int} (ha : 0 ≤ a) (hx : x < 0) :
    Int.tdiv a x = -(a / (-x)) := by
  have h : Int.tdiv a (-(-x)) = -(Int.tdiv a (-x)) := Int.tdiv_neg a (-x)
  rw [neg_neg] at h
  rw [h, Int.tdiv_eq_ediv ha (by omega)]

theorem tdiv_nonpos_neg {a x : Int} (ha : a ≤ 0) (hx : x < 0) :
    Int.tdiv a x = (-a) / (-x) := by
  have h : Int.tdiv (-(-a)) (-(-x)) = Int.tdiv (-a) (-x) := Int.neg_tdiv_neg (-a) (-x)
  rw [neg_neg, neg_neg] at h
  rw [h, Int.tdiv_eq_ediv (by omega) (by omega)]

theorem idiv_some {x y : Int} (hy : y ≠ 0) (h : ¬ (x = minf ∧ y = -1)) :
    idiv x y = some (Int.tdiv x y) := by
  simp [idiv, hy, h]

theorem idiv_pinf {x : Int} (hx : x ≠ 0) : idiv pinf x = some (Int.tdiv pinf x) :=
  idiv_some hx (fun h => absurd h.1 (by decide))

/-- Away from the faulting quotient `minf / -1`, the overflow-checked
product of two finite values with a finite product is the exact product. -/
theorem mulOverflow_exact {x y : Int} (hx : isFinite x) (hy : isFinite y)
    (hp : isFinite (x * y)) (h1 : ¬ (x = -1 ∧ 0 < y)) (h2 : ¬ (y = -1 ∧ 0 < x)) :
    mulOverflow x y = some (x * y) := by
  have hw : wrap (x * y) = x * y := wrap_of_isInt ⟨le_of_lt hp.1, le_of_lt hp.2⟩
  obtain ⟨hx1, hx2⟩ := hx
  obtain ⟨hy1, hy2⟩ := hy
  obtain ⟨hp1, hp2⟩ := hp
  unfold mulOverflow
  by_cases c1 : x > 0 ∧ y > 0
  · rw [if_pos c1, idiv_pinf (by omega)]
    have hk : y ≤ Int.tdiv pinf x := by
      rw [tdiv_of_pos (by decide) c1.1]
      exact Int.le_ediv_of_mul_le c1.1 (by rw [mul_comm]; exact le_of_lt hp2)
    simp [hw, not_lt.mpr hk]
  rw [if_neg c1]
  by_cases c2 : x < 0 ∧ y < 0
  · have n1 : ¬ (x = minf ∨ y = minf) := by
      rintro (h | h) <;> omega
    rw [if_pos c2, if_neg n1, idiv_pinf (by omega)]
    have hk : Int.tdiv pinf x ≤ y := by
      rw [tdiv_nonneg_neg (by decide) c2.1]
      have : -y ≤ pinf / (-x) :=
        Int.le_ediv_of_mul_le (by omega) (by rw [neg_mul_neg, mul_comm]; exact le_of_lt hp2)
      omega
    simp [hw, not_lt.mpr hk]
  rw [if_neg c2]
  by_cases c3 : x < 0 ∧ y > 0
  · have hx3 : x ≠ -1 := fun h => h1 ⟨h, c3.2⟩
    rw [if_pos c3, idiv_some (by omega) (by omega)]
    have hk : y ≤ Int.tdiv minf x := by
      rw [tdiv_nonpos_neg (by decide) c3.1]
      refine Int.le_ediv_of_mul_le (by omega) ?_
      have : y * -x = -(x * y) := by ring
      rw [this]
      unfold minf at hp1 ⊢
      omega
    simp [hw, not_lt.mpr hk]
  rw [if_neg c3]
  by_cases c4 : x > 0 ∧ y < 0
  · have hy3 : y ≠ -1 := fun h => h2 ⟨h, c4.1⟩
    rw [if_pos c4, idiv_some (by omega) (by omega)]
    have hk : x ≤ Int.tdiv minf y := by
      rw [tdiv_nonpos_neg (by decide) c4.2]
      refine Int.le_ediv_of_mul_le (by omega) ?_
      have : x * -y = -(x * y) := by ring
      rw [this]
      unfold minf at hp1 ⊢
      omega
    simp [hw, not_lt.mpr hk]
  rw [if_neg c4, hw]

/-- Away from the faulting quotient, `mul` is exact on finite singletons
with a finite product. -/
theorem mul_singleton_exact {x y : Int} (hx : isFinite x) (hy : isFinite y)
    (hp : isFinite (x * y)) (h1 : ¬ (x = -1 ∧ 0 < y)) (h2 : ¬ (y = -1 ∧ 0 < x)) :
    mul (make x x) (make y y) = some (make (x * y) (x * y)) := by
  have hb : ¬ ((lower (make x x) = pinf ∧ upper (make x x) = minf) ∨
      (lower (make y y) = pinf ∧ upper (make y y) = minf)) := by
    have := hx.1
    have := hx.2
    have := hy.1
    have := hy.2
    simp only [lower, upper, make]
    omega
  rw [mul, if_neg hb]
  simp [lower, upper, make, mulOverflow_exact hx hy hp h1 h2]

/-- C5: the claim's own example holds, but at `x = -1`, `y = 3` (both
finite, product `-3` finite) `mulOverflow` divides `minf` by `-1`, a
quotient with no machine value, and `mul` produces no interval. -/
theorem C5_mul_singleton_fault :
    mul (make 2 2) (make 3 3) = some (make 6 6) ∧
    isFinite (-1) ∧ isFinite 3 ∧ isFinite (-1 * 3) ∧
    idiv minf (-1) = none ∧
    mulOverflow (-1) 3 = none ∧
    mul (make (-1) (-1)) (make 3 3) = none ∧
    mul (make (-1) (-1)) (make 3 3) ≠ some (make (-1 * 3) (-1 * 3)) := by
  decide

/-! ## Division by an interval straddling zero -/

theorem mulOverflow_zero_left (y : Int) : mulOverflow 0 y = some 0 := by
  simp [mulOverflow, wrap]

theorem mulOverflow_pos_minf {x : Int} (hx : 0 < x) :
    mulOverflow x minf = some minf := by
  have c1 : ¬ (x > 0 ∧ minf > 0) := fun h => absurd h.2 (by decide)
  have c2 : ¬ (x < 0 ∧ minf < 0) := fun h => by omega
  have c3 : ¬ (x < 0 ∧ minf > 0) := fun h => by omega
  have c4 : x > 0 ∧ minf < 0 := ⟨hx, by decide⟩
  have hk : idiv minf minf = some 1 := by decide
  rw [mulOverflow, if_neg c1, if_neg c2, if_neg c3, if_pos c4, hk]
  by_cases h : x > 1
  · simp [h]
  · have : x = 1 := by omega
    subst this
    decide

theorem mulOverflow_pos_pinf {x : Int} (hx : 0 < x) :
    mulOverflow x pinf = some pinf := by
  have c1 : x > 0 ∧ pinf > 0 := ⟨hx, by decide⟩
  rw [mulOverflow, if_pos c1, idiv_pinf (by omega), tdiv_of_pos (by decide) hx]
  by_cases h : x = 1
  · subst h
    decide
  · have hk : pinf / x < pinf :=
      Int.ediv_lt_of_lt_mul hx (by unfold pinf; omega)
    simp [hk]

theorem mulOverflow_neg_minf {x : Int} (hx : x < 0) :
    mulOverflow x minf = some pinf := by
  have c1 : ¬ (x > 0 ∧ minf > 0) := fun h => by omega
  have c2 : x < 0 ∧ minf < 0 := ⟨hx, by decide⟩
  rw [mulOverflow, if_neg c1, if_pos c2, if_pos (Or.inr rfl)]

theorem mulOverflow_neg_pinf {x : Int} (hx : x < -1) :
    mulOverflow x pinf = some minf := by
  have c1 : ¬ (x > 0 ∧ pinf > 0) := fun h => by omega
  have c2 : ¬ (x < 0 ∧ pinf < 0) := fun h => absurd h.2 (by decide)
  have c3 : x < 0 ∧ pinf > 0 := ⟨by omega, by decide⟩
  rw [mulOverflow, if_neg c1, if_neg c2, if_pos c3, idiv_some (by omega) (by omega),
    tdiv_nonpos_neg (by decide) (by omega)]
  have hk : -minf / -x < pinf :=
    Int.ediv_lt_of_lt_mul (by omega) (by unfold minf pinf; omega)
  show (if pinf > -minf / -x then some minf else some (wrap (x * pinf))) = some minf
  rw [if_pos hk]

/-- The product of a non-bottom interval with top, by the signs of the two
bounds of the interval (neither of which is `-1`). -/
theorem mul_full {l : Interval} (hl : l ≠ empty)
    (h1 : lower l ≠ -1) (h2 : upper l ≠ -1) :
    mul l (make minf pinf) =
      if lower l = 0 ∧ upper l = 0 then some (make 0 0) else some full := by
  have hb : ¬ ((lower l = pinf ∧ upper l = minf) ∨
      (lower (make minf pinf) = pinf ∧ upper (make minf pinf) = minf)) := by
    rintro (⟨ha, hb⟩ | ⟨ha, _⟩)
    · exact hl (Prod.ext ha hb)
    · exact absurd ha (by decide)
  rw [mul, if_neg hb]
  have e1 : lower (make minf pinf) = minf := rfl
  have e2 : upper (make minf pinf) = pinf := rfl
  rw [e1, e2]
  rcases lt_trichotomy (lower l) 0 with ha | ha | ha <;>
  rcases lt_trichotomy (upper l) 0 with hb | hb | hb
  · rw [mulOverflow_neg_minf ha, mulOverflow_neg_pinf (by omega),
      mulOverflow_neg_minf hb, mulOverflow_neg_pinf (by omega),
      if_neg (by omega)]
    decide
  · rw [mulOverflow_neg_minf ha, mulOverflow_neg_pinf (by omega), hb,
      mulOverflow_zero_left, mulOverflow_zero_left, if_neg (by omega)]
    decide
  · rw [mulOverflow_neg_minf ha, mulOverflow_neg_pinf (by omega),
      mulOverflow_pos_minf hb, mulOverflow_pos_pinf hb, if_neg (by omega)]
    decide
  · rw [ha, mulOverflow_zero_left, mulOverflow_zero_left,
      mulOverflow_neg_minf hb, mulOverflow_neg_pinf (by omega), if_neg (by omega)]
    decide
  · rw [ha, hb, mulOverflow_zero_left, mulOverflow_zero_left, if_pos ⟨rfl, rfl⟩]
    decide
  · rw [ha, mulOverflow_zero_left, mulOverflow_zero_left,
      mulOverflow_pos_minf hb, mulOverflow_pos_pinf hb, if_neg (by omega)]
    decide
  · rw [mulOverflow_pos_minf ha, mulOverflow_pos_pinf ha,
      mulOverflow_neg_minf hb, mulOverflow_neg_pinf (by omega), if_neg (by omega)]
    decide
  · rw [mulOverflow_pos_minf ha, mulOverflow_pos_pinf ha, hb,
      mulOverflow_zero_left, mulOverflow_zero_left, if_neg (by omega)]
    decide
  · rw [mulOverflow_pos_minf ha, mulOverflow_pos_pinf ha,
      mulOverflow_pos_minf hb, mulOverflow_pos_pinf hb, if_neg (by omega)]
    decide

/-- A divisor with zero strictly inside sends `div` to `mul l full`. -/
theorem div_straddle {l r : Interval} (hl : l ≠ empty)
    (hr : lower r < 0 ∧ 0 < upper r) : div l r = mul l (make minf pinf) := by
  have c0 : ¬ ((lower l = pinf ∧ upper l = minf) ∨ (lower r = pinf ∧ upper r = minf)) := by
    rintro (⟨ha, hb⟩ | ⟨ha, _⟩)
    · exact hl (Prod.ext ha hb)
    · unfold pinf at ha; omega
  have c1 : ¬ ((lower r < 0 ∧ upper r < 0) ∨ (lower r > 0 ∧ upper r > 0)) := by omega
  have c2 : ¬ (upper r = 0) := by omega
  have c3 : ¬ (lower r = 0) := by omega
  rw [div, if_neg c0, if_neg c1, if_neg c2, if_neg c3]

/-- C6 (as amended): for a non-bottom well-formed `l` with neither bound
equal to `-1` and a divisor `r` with zero strictly inside, `div l r` is top,
except that it is `(0, 0)` when `l` is `(0, 0)`. -/
theorem C6_div_straddle (l r : Interval) (hl : l ≠ empty) (hwf : wellFormed l)
    (hr : lower r < 0 ∧ 0 < upper r) (h1 : lower l ≠ -1) (h2 : upper l ≠ -1) :
    (l ≠ make 0 0 → div l r = some full) ∧
    (l = make 0 0 → div l r = some (make 0 0)) := by
  rw [div_straddle hl hr, mul_full hl h1 h2]
  constructor
  · intro h0
    rw [if_neg]
    rintro ⟨ha, hb⟩
    exact h0 (Prod.ext ha hb)
  · intro h0
    subst h0
    rfl

/-- Witness of C6 at `l = (1, 1)`, `r = (-1, 1)`: the claim's example. -/
theorem C6_div_straddle_witness :
    div (make 1 1) (make (-1) 1) = some full :=
  (C6_div_straddle (make 1 1) (make (-1) 1) (by decide) (by decide)
    (by decide) (by decide) (by decide)).1 (by decide)

/-- C6 fails as stated: `(0, 0)` is non-bottom and well-formed, `(-1, 1)`
has zero strictly inside, and the quotient is `(0, 0)`, not top. -/
theorem C6_counterexample :
    make 0 0 ≠ empty ∧ wellFormed (make 0 0) ∧
    lower (make (-1) 1) < 0 ∧ 0 < upper (make (-1) 1) ∧
    div (make 0 0) (make (-1) 1) = some (make 0 0) ∧
    div (make 0 0) (make (-1) 1) ≠ some full := by
  decide

/-! ## Comparisons -/

theorem ne_empty_iff (l : Interval) :
    l ≠ empty ↔ ¬ (lower l = pinf ∧ upper l = minf) := by
  constructor
  · rintro h ⟨ha, hb⟩
    exact h (Prod.ext ha hb)
  · rintro h rfl
    exact h ⟨rfl, rfl⟩

/-- C7: on well-formed intervals `lt` is unknown when an operand is bottom;
otherwise it is true exactly when `upper l < lower r`, false exactly when
`lower l > upper r`, and unknown in every other case. -/
theorem C7_lt_three_valued (l r : Interval) (hl : wellFormed l) (hr : wellFormed r) :
    ((l = empty ∨ r = empty) → lt l r = unit) ∧
    (l ≠ empty → r ≠ empty →
      (lt l r = make 1 1 ↔ upper l < lower r) ∧
      (lt l r = make 0 0 ↔ lower l > upper r) ∧
      (¬ upper l < lower r → ¬ lower l > upper r → lt l r = unit)) ∧
    lt (make 1 1) (make 2 2) = make 1 1 ∧
    lt (make 1 5) (make 3 3) = unit := by
  refine ⟨?_, ?_, by decide, by decide⟩
  · intro h
    have hc : (lower l = pinf ∧ upper l = minf) ∨ (lower r = pinf ∧ upper r = minf) := by
      rcases h with h | h
      · left; subst h; exact ⟨rfl, rfl⟩
      · right; subst h; exact ⟨rfl, rfl⟩
    rw [lt, if_pos hc]
  · intro hle hre
    have wl : lower l ≤ upper l := hl.resolve_left hle
    have wr : lower r ≤ upper r := hr.resolve_left hre
    have hc : ¬ ((lower l = pinf ∧ upper l = minf) ∨ (lower r = pinf ∧ upper r = minf)) := by
      rintro (h | h)
      · exact (ne_empty_iff l).mp hle h
      · exact (ne_empty_iff r).mp hre h
    have d10 : make 1 1 ≠ make 0 0 := by decide
    have d1u : make 1 1 ≠ unit := by decide
    have d0u : make 0 0 ≠ unit := by decide
    rw [lt, if_neg hc]
    refine ⟨?_, ?_, ?_⟩
    · split_ifs with h1 h2
      · exact ⟨fun _ => h1, fun _ => rfl⟩
      · exact ⟨fun h => absurd h.symm d10, fun h => absurd h h1⟩
      · exact ⟨fun h => absurd h.symm d1u, fun h => absurd h h1⟩
    · split_ifs with h1 h2
      · exact ⟨fun h => absurd h d10, fun h => by omega⟩
      · exact ⟨fun _ => h2, fun _ => rfl⟩
      · exact ⟨fun h => absurd h.symm d0u, fun h => absurd h h2⟩
    · intro h1 h2
      rw [if_neg h1, if_neg h2]

/-- Witness of C7 at `l = (1, 5)`, `r = (7, 9)`. -/
theorem C7_lt_three_valued_witness :
    wellFormed (make 1 5) ∧ wellFormed (make 7 9) ∧
    (lt (make 1 5) (make 7 9) = make 1 1 ↔ upper (make 1 5) < lower (make 7 9)) :=
  ⟨by decide, by decide,
   ((C7_lt_three_valued (make 1 5) (make 7 9) (by decide) (by decide)).2.1
      (by decide) (by decide)).1⟩

/-- C8: `eq` is unknown as soon as one of the four bounds is a sentinel;
with four finite bounds (and well-formed operands) it is true exactly when
both intervals are the same single point, false exactly when they are
disjoint, and unknown otherwise. -/
theorem C8_eq_three_valued (l r : Interval) :
    ((lower l = minf ∨ lower l = pinf ∨ upper l = minf ∨ upper l = pinf ∨
      lower r = minf ∨ lower r = pinf ∨ upper r = minf ∨ upper r = pinf) →
      eq l r = unit) ∧
    (lower l ≠ minf → lower l ≠ pinf → upper l ≠ minf → upper l ≠ pinf →
      lower r ≠ minf → lower r ≠ pinf → upper r ≠ minf → upper r ≠ pinf →
      wellFormed l → wellFormed r →
      (eq l r = make 1 1 ↔
        (lower l = upper l ∧ upper l = lower r ∧ lower r = upper r)) ∧
      (eq l r = make 0 0 ↔ (upper l < lower r ∨ lower l > upper r)) ∧
      (¬ (lower l = upper l ∧ upper l = lower r ∧ lower r = upper r) →
        ¬ (upper l < lower r ∨ lower l > upper r) → eq l r = unit)) ∧
    eq (make 4 4) (make 4 4) = make 1 1 := by
  have d10 : make 1 1 ≠ make 0 0 := by decide
  have d1u : make 1 1 ≠ unit := by decide
  have d0u : make 0 0 ≠ unit := by decide
  refine ⟨?_, ?_, by decide⟩
  · intro h
    unfold eq
    by_cases c1 : lower l = pinf ∨ lower l = minf
    · rw [if_pos c1]
    rw [if_neg c1]
    by_cases c2 : lower r = pinf ∨ lower r = minf
    · rw [if_pos c2]
    rw [if_neg c2]
    by_cases c3 : upper l = pinf ∨ upper l = minf
    · rw [if_pos c3]
    rw [if_neg c3]
    by_cases c4 : upper r = pinf ∨ upper r = minf
    · rw [if_pos c4]
    exfalso
    rcases h with h | h | h | h | h | h | h | h
    · exact c1 (Or.inr h)
    · exact c1 (Or.inl h)
    · exact c3 (Or.inr h)
    · exact c3 (Or.inl h)
    · exact c2 (Or.inr h)
    · exact c2 (Or.inl h)
    · exact c4 (Or.inr h)
    · exact c4 (Or.inl h)
  · intro a1 a2 a3 a4 a5 a6 a7 a8 _ _
    have c1 : ¬ (lower l = pinf ∨ lower l = minf) := fun h => h.elim a2 a1
    have c2 : ¬ (lower r = pinf ∨ lower r = minf) := fun h => h.elim a6 a5
    have c3 : ¬ (upper l = pinf ∨ upper l = minf) := fun h => h.elim a4 a3
    have c4 : ¬ (upper r = pinf ∨ upper r = minf) := fun h => h.elim a8 a7
    rw [eq, if_neg c1, if_neg c2, if_neg c3, if_neg c4]
    refine ⟨?_, ?_, ?_⟩
    · split_ifs with h1 h2
      · exact ⟨fun _ => by omega, fun _ => rfl⟩
      · exact ⟨fun h => absurd h.symm d10, fun h => absurd (by omega) h1⟩
      · exact ⟨fun h => absurd h.symm d1u, fun h => absurd (by omega) h1⟩
    · split_ifs with h1 h2
      · exact ⟨fun h => absurd h d10, fun h => by omega⟩
      · exact ⟨fun _ => h2, fun _ => rfl⟩
      · exact ⟨fun h => absurd h.symm d0u, fun h => absurd h h2⟩
    · intro h1 h2
      rw [if_neg (by omega), if_neg h2]

/-- Witness of C8 at `l = (1, 2)`, `r = (5, 6)`: disjoint, so false. -/
theorem C8_eq_three_valued_witness :
    eq (make 1 2) (make 5 6) = make 0 0 ↔
      (upper (make 1 2) < lower (make 5 6) ∨ lower (make 1 2) > upper (make 5 6)) :=
  ((C8_eq_three_valued (make 1 2) (make 5 6)).2.1 (by decide) (by decide)
    (by decide) (by decide) (by decide) (by decide) (by decide) (by decide)
    (by decide) (by decide)).2.1

/-- C9: `ne` answers true exactly when `eq` answers false, false exactly
when `eq` answers true, and unknown exactly when `eq` answers unknown, for
all pairs of bounds. -/
theorem C9_ne_complements_eq (l r : Interval) :
    (ne l r = make 1 1 ↔ eq l r = make 0 0) ∧
    (ne l r = make 0 0 ↔ eq l r = make 1 1) ∧
    (ne l r = unit ↔ eq l r = unit) := by
  have d10 : make 1 1 ≠ make 0 0 := by decide
  have d1u : make 1 1 ≠ unit := by decide
  have d0u : make 0 0 ≠ unit := by decide
  have d01 : make 0 0 ≠ make 1 1 := by decide
  have du1 : unit ≠ make 1 1 := by decide
  have du0 : unit ≠ make 0 0 := by decide
  unfold ne eq
  split_ifs <;> simp [d10, d1u, d0u, d01, du1, du0]

/-! ## The join is symmetric -/

/-- On pairs of machine integers the case dispatch of `lub` computes the
componentwise minimum and maximum. -/
theorem lub_eq_min_max {l r : Interval} (hl : isInterval l) (hr : isInterval r) :
    lub l r = make (min (lower l) (lower r)) (max (upper l) (upper r)) := by
  obtain ⟨a, b⟩ := l
  obtain ⟨c, d⟩ := r
  obtain ⟨⟨ha1, ha2⟩, hb1, hb2⟩ := hl
  obtain ⟨⟨hc1, hc2⟩, hd1, hd2⟩ := hr
  simp only [lower, upper] at ha1 ha2 hb1 hb2 hc1 hc2 hd1 hd2
  by_cases h1 : equal (a, b) full = true
  · rw [lub, if_pos h1]
    have h := (equal_iff _ _).mp h1
    simp only [full, make, Prod.mk.injEq] at h
    obtain ⟨rfl, rfl⟩ := h
    simp only [full, make, lower, upper, Prod.mk.injEq]
    exact ⟨(min_eq_left hc1).symm, (max_eq_left hd2).symm⟩
  by_cases h2 : equal (a, b) empty = true
  · rw [lub, if_neg h1, if_pos h2]
    have h := (equal_iff _ _).mp h2
    simp only [empty, make, Prod.mk.injEq] at h
    obtain ⟨rfl, rfl⟩ := h
    simp only [make, lower, upper, Prod.mk.injEq]
    exact ⟨(min_eq_right hc2).symm, (max_eq_right hd1).symm⟩
  rw [lub, if_neg h1, if_neg h2]
  simp only [lower, upper, make]
  split_ifs with h3 h4 h5
  · obtain ⟨rfl, rfl⟩ := h3
    simp only [full, make, Prod.mk.injEq]
    exact ⟨(min_eq_left hc1).symm, (max_eq_right hb2).symm⟩
  · subst h4
    simp only [Prod.mk.injEq]
    exact ⟨(min_eq_left hc1).symm, trivial⟩
  · subst h5
    simp only [Prod.mk.injEq]
    exact ⟨trivial, (max_eq_left hd2).symm⟩
  · rfl

/-- Symmetry of the join on pairs of machine integers. -/
theorem lub_comm_of_isInterval {a b : Interval} (ha : isInterval a) (hb : isInterval b) :
    lub a b = lub b a := by
  rw [lub_eq_min_max ha hb, lub_eq_min_max hb ha, min_comm, max_comm]

/-- C10 (as amended): although the dispatch of `lub` inspects the left
operand first, its result is symmetric: `lub a b = lub b a` for all
intervals `a`, `b` (pairs of machine integers). -/
theorem C10_lub_symmetric (a b : Interval) (ha : isInterval a) (hb : isInterval b) :
    lub a b = lub b a :=
  lub_comm_of_isInterval ha hb

/-- Witness of C10 at `a = (minf, 3)`, `b = (5, pinf)`. -/
theorem C10_lub_symmetric_witness :
    isInterval (make minf 3) ∧ isInterval (make 5 pinf) ∧
    lub (make minf 3) (make 5 pinf) = lub (make 5 pinf) (make minf 3) :=
  ⟨by decide, by decide,
   C10_lub_symmetric (make minf 3) (make 5 pinf) (by decide) (by decide)⟩

/-- C10 fails as stated: no two intervals are joined differently in the two
orders. -/
theorem C10_counterexample :
    ¬ ∃ a b : Interval, isInterval a ∧ isInterval b ∧ lub a b ≠ lub b a := by
  rintro ⟨a, b, ha, hb, h⟩
  exact h (lub_comm_of_isInterval ha hb)

/-! ## The join is the componentwise bound and the least upper bound -/

/-- C20: on all pairs of machine integers (top, bottom and malformed pairs
included) the six-way dispatch of `lub` returns the componentwise minimum
of the lower bounds and maximum of the upper bounds. -/
theorem C20_lub_componentwise (l r : Interval) (hl : isInterval l) (hr : isInterval r) :
    lub l r = make (min (lower l) (lower r)) (max (upper l) (upper r)) :=
  lub_eq_min_max hl hr

/-- Witness of C20 at the malformed pair `(7, 2)` and `(minf, 5)`. -/
theorem C20_lub_componentwise_witness :
    isInterval (make 7 2) ∧ isInterval (make minf 5) ∧
    lub (make 7 2) (make minf 5) =
      make (min (lower (make 7 2)) (lower (make minf 5)))
        (max (upper (make 7 2)) (upper (make minf 5))) :=
  ⟨by decide, by decide,
   C20_lub_componentwise (make 7 2) (make minf 5) (by decide) (by decide)⟩

theorem empty_of_bounds {x : Interval} (hx : isInterval x)
    (h1 : pinf ≤ lower x) (h2 : upper x ≤ minf) : x = empty := by
  obtain ⟨a, b⟩ := x
  obtain ⟨⟨_, ha⟩, hb, _⟩ := hx
  simp only [lower, upper] at *
  simp only [empty, make, Prod.mk.injEq]
  omega

/-- C11: on well-formed intervals `lub l r` is well-formed, contains `l`
and `r`, and is included in every well-formed interval containing both. -/
theorem C11_lub_least_upper_bound (l r : Interval)
    (hl : isInterval l) (hr : isInterval r)
    (wl : wellFormed l) (wr : wellFormed r) :
    wellFormed (lub l r) ∧ included l (lub l r) ∧ included r (lub l r) ∧
    ∀ z : Interval, isInterval z → wellFormed z → included l z → included r z →
      included (lub l r) z := by
  rw [lub_eq_min_max hl hr]
  obtain ⟨a, b⟩ := l
  obtain ⟨c, d⟩ := r
  obtain ⟨⟨ha1, ha2⟩, hb1, hb2⟩ := hl
  obtain ⟨⟨hc1, hc2⟩, hd1, hd2⟩ := hr
  simp only [lower, upper] at ha1 ha2 hb1 hb2 hc1 hc2 hd1 hd2
  simp only [wellFormed, included, empty, make, lower, upper, Prod.mk.injEq] at wl wr ⊢
  unfold minf pinf at *
  refine ⟨?_, ?_, ?_, ?_⟩
  · omega
  · omega
  · omega
  · rintro ⟨e, f⟩ ⟨⟨he1, he2⟩, hf1, hf2⟩ _ hlz hrz
    simp only [lower, upper, Prod.mk.injEq] at he1 he2 hf1 hf2 hlz hrz ⊢
    omega

/-- Witness of C11 at `l = (1, 4)`, `r = (3, 9)`. -/
theorem C11_lub_least_upper_bound_witness :
    wellFormed (lub (make 1 4) (make 3 9)) ∧
    included (make 1 4) (lub (make 1 4) (make 3 9)) ∧
    included (make 3 9) (lub (make 1 4) (make 3 9)) :=
  ⟨(C11_lub_least_upper_bound (make 1 4) (make 3 9) (by decide) (by decide)
      (by decide) (by decide)).1,
   (C11_lub_least_upper_bound (make 1 4) (make 3 9) (by decide) (by decide)
      (by decide) (by decide)).2.1,
   (C11_lub_least_upper_bound (make 1 4) (make 3 9) (by decide) (by decide)
      (by decide) (by decide)).2.2.1⟩

/-! ## Greater-than mirrors less-than -/

/-- C13: on well-formed intervals `gt l r` is `lt r l`. -/
theorem C13_gt_mirrors_lt (l r : Interval) (hl : wellFormed l) (hr : wellFormed r) :
    gt l r = lt r l := by
  by_cases hc : (lower l = pinf ∧ upper l = minf) ∨ (lower r = pinf ∧ upper r = minf)
  · rw [gt, lt, if_pos hc, if_pos (Or.symm hc)]
  · have hle : l ≠ empty := (ne_empty_iff l).mpr (fun h => hc (Or.inl h))
    have hre : r ≠ empty := (ne_empty_iff r).mpr (fun h => hc (Or.inr h))
    have wl : lower l ≤ upper l := hl.resolve_left hle
    have wr : lower r ≤ upper r := hr.resolve_left hre
    have hc2 : ¬ ((lower r = pinf ∧ upper r = minf) ∨ (lower l = pinf ∧ upper l = minf)) :=
      fun h => hc (Or.symm h)
    rw [gt, lt, if_neg hc, if_neg hc2]
    split_ifs <;> first | rfl | (exfalso; omega)

/-- Witness of C13 at `l = (7, 9)`, `r = (1, 5)`. -/
theorem C13_gt_mirrors_lt_witness :
    wellFormed (make 7 9) ∧ wellFormed (make 1 5) ∧
    gt (make 7 9) (make 1 5) = lt (make 1 5) (make 7 9) :=
  ⟨by decide, by decide,
   C13_gt_mirrors_lt (make 7 9) (make 1 5) (by decide) (by decide)⟩

/-! ## Rendering -/

/-- C14: `str i` is the bracketed, comma-separated pair of the tokens of
the two bounds, the token of a bound being `-inf` for `minf`, `+inf` for
`pinf` and its decimal numeral otherwise; top renders as `[-inf,+inf]`. -/
theorem C14_str_format (i : Interval) :
    str i =
      "[" ++ (if lower i = minf then "-inf" else if lower i = pinf then "+inf"
              else toString (lower i)) ++ "," ++
             (if upper i = minf then "-inf" else if upper i = pinf then "+inf"
              else toString (upper i)) ++ "]" ∧
    str full = "[-inf,+inf]" ∧
    str (make (-3) 12) = "[-3,12]" ∧
    str (make 0 pinf) = "[0,+inf]" := by
  refine ⟨rfl, by decide, by decide, by decide⟩

/-! ## Soundness of addition, exactness of subtraction -/

/-- C12: for non-bottom `l`, `r` and finite `a` in `l`, `b` in `r` (so that
`l` and `r` are well-formed) whose sum lies strictly between the sentinels,
the sum lies between the bounds of `add l r`. -/
theorem C12_add_sound (l r : Interval) (a b : Int)
    (hl : isInterval l) (hr : isInterval r) (nl : l ≠ empty) (nr : r ≠ empty)
    (ha : isFinite a) (hb : isFinite b)
    (hal : lower l ≤ a ∧ a ≤ upper l) (hbr : lower r ≤ b ∧ b ≤ upper r)
    (hs : minf < a + b ∧ a + b < pinf) :
    lower (add l r) ≤ a + b ∧ a + b ≤ upper (add l r) := by
  have hc : ¬ ((lower l = pinf ∧ upper l = minf) ∨ (lower r = pinf ∧ upper r = minf)) := by
    rintro (h | h)
    · exact (ne_empty_iff l).mp nl h
    · exact (ne_empty_iff r).mp nr h
  rw [add, if_neg hc, checkOverflowAdd_eq_specSat hl.1 hr.1,
    checkOverflowAdd_eq_specSat hl.2 hr.2]
  obtain ⟨hl1, hl2⟩ := hl
  obtain ⟨hr1, hr2⟩ := hr
  simp only [lower, upper, make, specSat]
  unfold isInt at hl1 hl2 hr1 hr2
  unfold isFinite at ha hb
  simp only [lower, upper] at hl1 hl2 hr1 hr2 hal hbr
  unfold minf pinf at *
  constructor
  · split_ifs <;> omega
  · split_ifs <;> omega

/-- Witness of C12 at `l = (minf, 4)`, `r = (3, 9)`, `a = 2`, `b = 5`. -/
theorem C12_add_sound_witness :
    lower (add (make minf 4) (make 3 9)) ≤ 2 + 5 ∧
    2 + 5 ≤ upper (add (make minf 4) (make 3 9)) :=
  C12_add_sound (make minf 4) (make 3 9) 2 5 (by decide) (by decide) (by decide)
    (by decide) (by decide) (by decide) (by decide) (by decide) (by decide)

/-- C17 (as amended): for finite `x`, `y` with `y` other than `minf + 1`
and a difference strictly between the sentinels, `sub` of the two
singletons is the singleton of the difference. -/
theorem C17_sub_singleton_exact (x y : Int) (hx : isFinite x) (hy : isFinite y)
    (hd : isFinite (x - y)) (h : y ≠ minf + 1) :
    sub (make x x) (make y y) = make (x - y) (x - y) := by
  obtain ⟨hx1, hx2⟩ := hx
  obtain ⟨hy1, hy2⟩ := hy
  obtain ⟨hd1, hd2⟩ := hd
  have h3 : minf + 1 < y := by unfold minf at *; omega
  rw [sub, neg_singleton h3 hy2]
  have ix : isInt x := ⟨le_of_lt hx1, le_of_lt hx2⟩
  have iy : isInt (-y) := by unfold isInt minf pinf at *; omega
  have hc : ¬ ((lower (make x x) = pinf ∧ upper (make x x) = minf) ∨
      (lower (make (-y) (-y)) = pinf ∧ upper (make (-y) (-y)) = minf)) := by
    simp only [lower, upper, make]
    unfold minf pinf at *
    omega
  rw [add, if_neg hc]
  simp only [lower, upper, make, checkOverflowAdd_eq_specSat ix iy, specSat]
  unfold minf pinf at *
  have e : x + -y = x - y := by ring
  rw [e]
  simp only [Prod.mk.injEq]
  constructor
  · split_ifs <;> omega
  · split_ifs <;> omega

/-- Witness of C17 at `x = 7`, `y = 10`. -/
theorem C17_sub_singleton_exact_witness :
    sub (make 7 7) (make 10 10) = make (7 - 10) (7 - 10) :=
  C17_sub_singleton_exact 7 10 (by decide) (by decide) (by decide) (by decide)

/-- C17 fails as stated: `-5` and `-2147483647` are finite and their
difference `2147483642` is finite, but the negation of the second is the
POS_INF sentinel and the computed difference is `(pinf, pinf)`. -/
theorem C17_counterexample :
    isFinite (-5) ∧ isFinite (-2147483647) ∧ isFinite (-5 - -2147483647) ∧
    sub (make (-5) (-5)) (make (-2147483647) (-2147483647)) = make pinf pinf ∧
    sub (make (-5) (-5)) (make (-2147483647) (-2147483647)) ≠
      make (-5 - -2147483647) (-5 - -2147483647) := by
  decide

/-! ## Where the overflow-checked product has a result -/

theorem specSat_of_isInt {z : Int} (h : isInt z) : specSat z = z := by
  unfold isInt minf pinf at h
  unfold specSat minf pinf
  split_ifs <;> omega

theorem specSat_of_pinf_le {z : Int} (h : pinf ≤ z) : specSat z = pinf := by
  rw [specSat, if_pos h]

theorem specSat_of_le_minf {z : Int} (h : z ≤ minf) : specSat z = minf := by
  unfold minf at h
  unfold specSat minf pinf
  split_ifs <;> omega

/-- Away from the quotient `minf / -1`, the overflow-checked product of two
machine integers is the saturated product. -/
theorem mulOverflow_eq_specSat {x y : Int} (hx : isInt x) (hy : isInt y)
    (hf : ¬ faults x y) : mulOverflow x y = some (specSat (x * y)) := by
  obtain ⟨hx1, hx2⟩ := hx
  obtain ⟨hy1, hy2⟩ := hy
  unfold mulOverflow
  by_cases c1 : x > 0 ∧ y > 0
  · rw [if_pos c1, idiv_pinf (by omega), tdiv_of_pos (by decide) c1.1]
    show (if y > pinf / x then some pinf else some (wrap (x * y))) = _
    by_cases hk : y > pinf / x
    · have : pinf < y * x := Int.lt_mul_of_ediv_lt c1.1 hk
      rw [if_pos hk, specSat_of_pinf_le (by rw [mul_comm]; exact le_of_lt this)]
    · have h1 : y * x ≤ pinf := (Int.le_ediv_iff_mul_le c1.1).mp (not_lt.mp hk)
      have h2 : 0 < x * y := mul_pos c1.1 c1.2
      have hi : isInt (x * y) := by
        constructor
        · unfold minf; omega
        · rw [mul_comm]; exact h1
      rw [if_neg hk, wrap_of_isInt hi, specSat_of_isInt hi]
  rw [if_neg c1]
  by_cases c2 : x < 0 ∧ y < 0
  · rw [if_pos c2]
    have hpos : x * y = (-x) * (-y) := by ring
    by_cases n1 : x = minf ∨ y = minf
    · rw [if_pos n1]
      have : pinf ≤ x * y := by
        rw [hpos]
        unfold minf pinf at *
        rcases n1 with h | h
        · subst h
          have : (1 : Int) ≤ -y := by omega
          nlinarith
        · subst h
          have : (1 : Int) ≤ -x := by omega
          nlinarith
      rw [specSat_of_pinf_le this]
    · rw [if_neg n1, idiv_pinf (by omega), tdiv_nonneg_neg (by decide) c2.1]
      show (if y < -(pinf / -x) then some pinf else some (wrap (x * y))) = _
      by_cases hk : y < -(pinf / -x)
      · have hk2 : pinf / -x < -y := by omega
        have : pinf < -y * -x := Int.lt_mul_of_ediv_lt (by omega) hk2
        rw [if_pos hk, specSat_of_pinf_le (by rw [hpos, mul_comm]; exact le_of_lt this)]
      · have hk2 : -y ≤ pinf / -x := by omega
        have h1 : -y * -x ≤ pinf := (Int.le_ediv_iff_mul_le (by omega)).mp hk2
        have h2 : 0 < -x * -y := mul_pos (by omega) (by omega)
        have hi : isInt (x * y) := by
          rw [hpos]
          constructor
          · unfold minf; omega
          · rw [mul_comm]; exact h1
        rw [if_neg hk, wrap_of_isInt hi, specSat_of_isInt hi]
  rw [if_neg c2]
  by_cases c3 : x < 0 ∧ y > 0
  · have hx3 : x ≠ -1 := fun h => hf (Or.inl ⟨h, c3.2⟩)
    rw [if_pos c3, idiv_some (by omega) (by omega),
      tdiv_nonpos_neg (by decide) c3.1]
    show (if y > -minf / -x then some minf else some (wrap (x * y))) = _
    have hneg : y * -x = -(x * y) := by ring
    by_cases hk : y > -minf / -x
    · have : -minf < y * -x := Int.lt_mul_of_ediv_lt (by omega) hk
      rw [if_pos hk, specSat_of_le_minf (by rw [hneg] at this; omega)]
    · have h1 : y * -x ≤ -minf := (Int.le_ediv_iff_mul_le (by omega)).mp (not_lt.mp hk)
      have h2 : 0 < -x * y := mul_pos (by omega) c3.2
      have h3 : -x * y = -(x * y) := by ring
      have hi : isInt (x * y) := by
        rw [hneg] at h1
        rw [h3] at h2
        unfold isInt minf pinf at *
        omega
      rw [if_neg hk, wrap_of_isInt hi, specSat_of_isInt hi]
  rw [if_neg c3]
  by_cases c4 : x > 0 ∧ y < 0
  · have hy3 : y ≠ -1 := fun h => hf (Or.inr ⟨c4.1, h⟩)
    rw [if_pos c4, idiv_some (by omega) (by omega),
      tdiv_nonpos_neg (by decide) c4.2]
    show (if x > -minf / -y then some minf else some (wrap (x * y))) = _
    have hneg : x * -y = -(x * y) := by ring
    by_cases hk : x > -minf / -y
    · have : -minf < x * -y := Int.lt_mul_of_ediv_lt (by omega) hk
      rw [if_pos hk, specSat_of_le_minf (by rw [hneg] at this; omega)]
    · have h1 : x * -y ≤ -minf := (Int.le_ediv_iff_mul_le (by omega)).mp (not_lt.mp hk)
      have h2 : 0 < x * -y := mul_pos c4.1 (by omega)
      have hi : isInt (x * y) := by
        rw [hneg] at h1 h2
        unfold isInt minf pinf at *
        omega
      rw [if_neg hk, wrap_of_isInt hi, specSat_of_isInt hi]
  rw [if_neg c4]
  have hz : x * y = 0 := by
    have : x = 0 ∨ y = 0 := by omega
    rcases this with h | h <;> simp [h]
  rw [hz]
  rfl

/-- The overflow-checked product has no result exactly on the operand
pairs where it divides `minf` by `-1`. -/
theorem mulOverflow_eq_none_iff (x y : Int) :
    mulOverflow x y = none ↔ faults x y := by
  unfold faults
  constructor
  · intro h
    by_contra hf
    unfold mulOverflow at h
    by_cases c1 : x > 0 ∧ y > 0
    · rw [if_pos c1, idiv_pinf (by omega)] at h
      simp only [Option.bind] at h
      split_ifs at h
    rw [if_neg c1] at h
    by_cases c2 : x < 0 ∧ y < 0
    · rw [if_pos c2] at h
      by_cases n1 : x = minf ∨ y = minf
      · rw [if_pos n1] at h
        exact absurd h (by simp)
      · rw [if_neg n1, idiv_pinf (by omega)] at h
        simp only [Option.bind] at h
        split_ifs at h
    rw [if_neg c2] at h
    by_cases c3 : x < 0 ∧ y > 0
    · have hx3 : x ≠ -1 := fun e => hf (Or.inl ⟨e, c3.2⟩)
      rw [if_pos c3, idiv_some (by omega) (by omega)] at h
      simp only [Option.bind] at h
      split_ifs at h
    rw [if_neg c3] at h
    by_cases c4 : x > 0 ∧ y < 0
    · have hy3 : y ≠ -1 := fun e => hf (Or.inr ⟨c4.1, e⟩)
      rw [if_pos c4, idiv_some (by omega) (by omega)] at h
      simp only [Option.bind] at h
      split_ifs at h
    rw [if_neg c4] at h
    exact absurd h (by simp)
  · have hm : idiv minf (-1) = none := by decide
    rintro (⟨hx, hy⟩ | ⟨hx, hy⟩)
    · subst hx
      have c1 : ¬ ((-1 : Int) > 0 ∧ y > 0) := by omega
      have c2 : ¬ ((-1 : Int) < 0 ∧ y < 0) := by omega
      have c3 : (-1 : Int) < 0 ∧ y > 0 := ⟨by decide, hy⟩
      rw [mulOverflow, if_neg c1, if_neg c2, if_pos c3, hm]
      rfl
    · subst hy
      have c1 : ¬ (x > 0 ∧ (-1 : Int) > 0) := by omega
      have c2 : ¬ (x < 0 ∧ (-1 : Int) < 0) := by omega
      have c3 : ¬ (x < 0 ∧ (-1 : Int) > 0) := by omega
      have c4 : x > 0 ∧ (-1 : Int) < 0 := ⟨hx, by decide⟩
      rw [mulOverflow, if_neg c1, if_neg c2, if_neg c3, if_pos c4, hm]
      rfl

/-- C15: `mulOverflow` never divides by zero, but it evaluates the
unrepresentable quotient `minf / -1`, and so has no result, exactly when
`-1` is paired with a positive operand; `mul (7, 7) (-1, -1)` produces no
interval. -/
theorem C15_mulOverflow_faults :
    (∀ x y : Int, mulOverflow x y = none ↔ ((x = -1 ∧ 0 < y) ∨ (0 < x ∧ y = -1))) ∧
    idiv minf (-1) = none ∧
    mulOverflow 7 (-1) = none ∧
    mul (make 7 7) (make (-1) (-1)) = none :=
  ⟨mulOverflow_eq_none_iff, by decide, by decide, by decide⟩

/-! ## Soundness of multiplication where it has a result -/

theorem specSat_mono {z w : Int} (h : z ≤ w) : specSat z ≤ specSat w := by
  unfold specSat minf pinf
  split_ifs <;> omega

theorem corner_le {la ua lb ub a b : Int} (h1 : la ≤ a) (h2 : a ≤ ua)
    (h3 : lb ≤ b) (h4 : b ≤ ub) :
    la * lb ≤ a * b ∨ la * ub ≤ a * b ∨ ua * lb ≤ a * b ∨ ua * ub ≤ a * b := by
  rcases le_total 0 b with hb | hb
  · rcases le_total 0 la with hl | hl
    · left
      nlinarith [mul_nonneg (sub_nonneg.2 h1) hb, mul_nonneg hl (sub_nonneg.2 h3)]
    · right; left
      nlinarith [mul_nonneg (sub_nonneg.2 h1) hb,
        mul_nonneg (neg_nonneg.2 hl) (sub_nonneg.2 h4)]
  · rcases le_total 0 ua with hu | hu
    · right; right; left
      nlinarith [mul_nonneg (sub_nonneg.2 h2) (neg_nonneg.2 hb),
        mul_nonneg hu (sub_nonneg.2 h3)]
    · right; right; right
      nlinarith [mul_nonneg (sub_nonneg.2 h2) (neg_nonneg.2 hb),
        mul_nonneg (neg_nonneg.2 hu) (sub_nonneg.2 h4)]

theorem corner_ge {la ua lb ub a b : Int} (h1 : la ≤ a) (h2 : a ≤ ua)
    (h3 : lb ≤ b) (h4 : b ≤ ub) :
    a * b ≤ la * lb ∨ a * b ≤ la * ub ∨ a * b ≤ ua * lb ∨ a * b ≤ ua * ub := by
  have h := corner_le (neg_le_neg h2) (neg_le_neg h1) h3 h4
  simp only [neg_mul, neg_le_neg_iff] at h
  rcases h with h | h | h | h
  · right; right; left; exact h
  · right; right; right; exact h
  · left; exact h
  · right; left; exact h

/-- The result of `mul` on non-bottom pairs of machine integers none of
whose four corner pairs divides `minf` by `-1`: the least and the greatest
of the four saturated corner products. -/
theorem mul_of_not_faults {l r : Interval} (hl : isInterval l) (hr : isInterval r)
    (nl : l ≠ empty) (nr : r ≠ empty)
    (f1 : ¬ faults (lower l) (lower r)) (f2 : ¬ faults (lower l) (upper r))
    (f3 : ¬ faults (upper l) (lower r)) (f4 : ¬ faults (upper l) (upper r)) :
    mul l r = some (make
      (min (min (specSat (lower l * lower r)) (specSat (lower l * upper r)))
        (min (specSat (upper l * lower r)) (specSat (upper l * upper r))))
      (max (max (specSat (lower l * lower r)) (specSat (lower l * upper r)))
        (max (specSat (upper l * lower r)) (specSat (upper l * upper r))))) := by
  have hc : ¬ ((lower l = pinf ∧ upper l = minf) ∨ (lower r = pinf ∧ upper r = minf)) := by
    rintro (h | h)
    · exact (ne_empty_iff l).mp nl h
    · exact (ne_empty_iff r).mp nr h
  rw [mul, if_neg hc, mulOverflow_eq_specSat hl.1 hr.1 f1,
    mulOverflow_eq_specSat hl.1 hr.2 f2, mulOverflow_eq_specSat hl.2 hr.1 f3,
    mulOverflow_eq_specSat hl.2 hr.2 f4]
  rfl

/-- Where none of the four corner pairs divides `minf` by `-1`, `mul` has a
result and the result contains every product of a member of `l` and a
member of `r` that lies strictly between the sentinels. -/
theorem mul_sound_of_not_faults {l r : Interval} {a b : Int}
    (hl : isInterval l) (hr : isInterval r) (nl : l ≠ empty) (nr : r ≠ empty)
    (f1 : ¬ faults (lower l) (lower r)) (f2 : ¬ faults (lower l) (upper r))
    (f3 : ¬ faults (upper l) (lower r)) (f4 : ¬ faults (upper l) (upper r))
    (hal : lower l ≤ a ∧ a ≤ upper l) (hbr : lower r ≤ b ∧ b ≤ upper r)
    (hp : isFinite (a * b)) :
    ∃ m, mul l r = some m ∧ lower m ≤ a * b ∧ a * b ≤ upper m := by
  refine ⟨_, mul_of_not_faults hl hr nl nr f1 f2 f3 f4, ?_, ?_⟩
  · have hs : specSat (a * b) = a * b :=
      specSat_of_isInt ⟨le_of_lt hp.1, le_of_lt hp.2⟩
    have h := corner_le hal.1 hal.2 hbr.1 hbr.2
    have h' : specSat (lower l * lower r) ≤ a * b ∨ specSat (lower l * upper r) ≤ a * b ∨
        specSat (upper l * lower r) ≤ a * b ∨ specSat (upper l * upper r) ≤ a * b := by
      rcases h with h | h | h | h
      · left; rw [← hs]; exact specSat_mono h
      · right; left; rw [← hs]; exact specSat_mono h
      · right; right; left; rw [← hs]; exact specSat_mono h
      · right; right; right; rw [← hs]; exact specSat_mono h
    simp only [lower, upper, make] at h' ⊢
    omega
  · have hs : specSat (a * b) = a * b :=
      specSat_of_isInt ⟨le_of_lt hp.1, le_of_lt hp.2⟩
    have h := corner_ge hal.1 hal.2 hbr.1 hbr.2
    have h' : a * b ≤ specSat (lower l * lower r) ∨ a * b ≤ specSat (lower l * upper r) ∨
        a * b ≤ specSat (upper l * lower r) ∨ a * b ≤ specSat (upper l * upper r) := by
      rcases h with h | h | h | h
      · left; rw [← hs]; exact specSat_mono h
      · right; left; rw [← hs]; exact specSat_mono h
      · right; right; left; rw [← hs]; exact specSat_mono h
      · right; right; right; rw [← hs]; exact specSat_mono h
    simp only [lower, upper, make] at h' ⊢
    omega

/-- C16: `l = (-1, 2)` and `r = (3, 4)` are well-formed and non-bottom,
`0` lies in `l`, `3` in `r`, the product `0` is finite, but the corner
product `mulOverflow (-1) 3` divides `minf` by `-1` and `mul l r` produces
no interval to contain the product. -/
theorem C16_mul_sound_fault :
    isInterval (make (-1) 2) ∧ isInterval (make 3 4) ∧
    wellFormed (make (-1) 2) ∧ wellFormed (make 3 4) ∧
    make (-1) 2 ≠ empty ∧ make 3 4 ≠ empty ∧
    isFinite 0 ∧ isFinite 3 ∧
    lower (make (-1) 2) ≤ 0 ∧ 0 ≤ upper (make (-1) 2) ∧
    lower (make 3 4) ≤ 3 ∧ 3 ≤ upper (make 3 4) ∧
    isFinite (0 * 3) ∧
    faults (lower (make (-1) 2)) (lower (make 3 4)) ∧
    mul (make (-1) 2) (make 3 4) = none := by
  decide

/-! ## Well-formedness of the results -/

theorem wrap_isInt (x : Int) : isInt (wrap x) := by
  unfold isInt wrap minf pinf
  omega

/-- The join of well-formed intervals is well-formed. -/
theorem lub_wellFormed {l r : Interval} (hl : isInterval l) (hr : isInterval r)
    (wl : wellFormed l) (wr : wellFormed r) : wellFormed (lub l r) := by
  rw [lub_eq_min_max hl hr]
  obtain ⟨a, b⟩ := l
  obtain ⟨c, d⟩ := r
  obtain ⟨⟨ha1, ha2⟩, hb1, hb2⟩ := hl
  obtain ⟨⟨hc1, hc2⟩, hd1, hd2⟩ := hr
  simp only [lower, upper] at ha1 ha2 hb1 hb2 hc1 hc2 hd1 hd2
  simp only [wellFormed, empty, make, lower, upper, Prod.mk.injEq] at wl wr ⊢
  unfold minf pinf at *
  omega

/-- The negation of a pair of machine integers is a pair of machine
integers. -/
theorem neg_isInterval (i : Interval) : isInterval (neg i) := by
  have h1 : isInt minf := by decide
  have h2 : isInt pinf := by decide
  have hmin : ∀ x y : Int, isInt x → isInt y → isInt (min x y) := by
    intro x y hx hy
    unfold isInt at *
    omega
  have hmax : ∀ x y : Int, isInt x → isInt y → isInt (max x y) := by
    intro x y hx hy
    unfold isInt at *
    omega
  unfold neg
  split_ifs
  · exact ⟨h1, h2⟩
  · exact ⟨h2, h1⟩
  · exact ⟨h2, h2⟩
  · exact ⟨h1, h1⟩
  · exact ⟨h1, wrap_isInt _⟩
  · exact ⟨wrap_isInt _, h2⟩
  · exact ⟨hmin _ _ (wrap_isInt _) (wrap_isInt _), hmax _ _ (wrap_isInt _) (wrap_isInt _)⟩

/-- The negation of a well-formed interval is well-formed. -/
theorem neg_wellFormed {i : Interval} (hi : isInterval i) (w : wellFormed i) :
    wellFormed (neg i) := by
  have e1 : minf = -2147483648 := rfl
  have e2 : pinf = 2147483647 := rfl
  obtain ⟨a, b⟩ := i
  obtain ⟨⟨ha1, ha2⟩, hb1, hb2⟩ := hi
  simp only [lower, upper] at ha1 ha2 hb1 hb2
  simp only [wellFormed, empty, make, lower, upper, Prod.mk.injEq] at w
  unfold neg
  simp only [lower, upper]
  split_ifs <;>
    simp only [wellFormed, full, empty, make, lower, upper, wrap, Prod.mk.injEq] <;>
    first | omega | exact Or.inl trivial

/-- Only bottom is negated to bottom. -/
theorem neg_eq_empty {i : Interval} (h : neg i = empty) : i = empty := by
  have e1 : minf = -2147483648 := rfl
  have e2 : pinf = 2147483647 := rfl
  obtain ⟨a, b⟩ := i
  unfold neg at h
  simp only [lower, upper] at h
  simp only [empty, make, Prod.mk.injEq]
  split_ifs at h <;>
    simp only [full, empty, make, wrap, Prod.mk.injEq] at h <;>
    omega

/-- The sum of well-formed intervals is well-formed, and is bottom only
when an operand is. -/
theorem add_wellFormed {l r : Interval} (hl : isInterval l) (hr : isInterval r)
    (wl : wellFormed l) (wr : wellFormed r) :
    wellFormed (add l r) ∧ (add l r = empty → l = empty ∨ r = empty) := by
  have e1 : minf = -2147483648 := rfl
  have e2 : pinf = 2147483647 := rfl
  by_cases hc : (lower l = pinf ∧ upper l = minf) ∨ (lower r = pinf ∧ upper r = minf)
  · rw [add, if_pos hc]
    refine ⟨Or.inl rfl, fun _ => ?_⟩
    rcases hc with h | h
    · exact Or.inl (Prod.ext h.1 h.2)
    · exact Or.inr (Prod.ext h.1 h.2)
  · have nl : l ≠ empty := (ne_empty_iff l).mpr (fun h => hc (Or.inl h))
    have nr : r ≠ empty := (ne_empty_iff r).mpr (fun h => hc (Or.inr h))
    have wl2 : lower l ≤ upper l := wl.resolve_left nl
    have wr2 : lower r ≤ upper r := wr.resolve_left nr
    rw [add, if_neg hc, checkOverflowAdd_eq_specSat hl.1 hr.1,
      checkOverflowAdd_eq_specSat hl.2 hr.2]
    obtain ⟨hl1, hl2⟩ := hl
    obtain ⟨hr1, hr2⟩ := hr
    unfold isInt at hl1 hl2 hr1 hr2
    obtain ⟨a, b⟩ := l
    obtain ⟨c, d⟩ := r
    simp only [lower, upper] at hl1 hl2 hr1 hr2 wl2 wr2
    simp only [lower, upper, specSat]
    constructor
    · split_ifs <;>
        simp only [wellFormed, empty, make, lower, upper, Prod.mk.injEq] <;>
        omega
    · intro h
      exfalso
      split_ifs at h <;>
        simp only [empty, make, Prod.mk.injEq] at h <;>
        omega

/-- The difference of well-formed intervals is well-formed, and is bottom
only when an operand is. -/
theorem sub_wellFormed {l r : Interval} (hl : isInterval l) (hr : isInterval r)
    (wl : wellFormed l) (wr : wellFormed r) :
    wellFormed (sub l r) ∧ (sub l r = empty → l = empty ∨ r = empty) := by
  have h := add_wellFormed hl (neg_isInterval r) wl (neg_wellFormed hr wr)
  refine ⟨h.1, fun he => ?_⟩
  rcases h.2 he with h1 | h1
  · exact Or.inl h1
  · exact Or.inr (neg_eq_empty h1)

/-- Every result of `mul` is well-formed, and is bottom only when an
operand is. -/
theorem mul_wellFormed_of_some {l r m : Interval} (h : mul l r = some m) :
    wellFormed m ∧ (m = empty → l = empty ∨ r = empty) := by
  by_cases hc : (lower l = pinf ∧ upper l = minf) ∨ (lower r = pinf ∧ upper r = minf)
  · rw [mul, if_pos hc] at h
    have hm : m = empty := (Option.some.inj h).symm
    refine ⟨Or.inl hm, fun _ => ?_⟩
    rcases hc with h | h
    · exact Or.inl (Prod.ext h.1 h.2)
    · exact Or.inr (Prod.ext h.1 h.2)
  · rw [mul, if_neg hc] at h
    cases h1 : mulOverflow (lower l) (lower r) with
    | none => rw [h1] at h; exact absurd h (by simp)
    | some p =>
      cases h2 : mulOverflow (lower l) (upper r) with
      | none => rw [h1, h2] at h; exact absurd h (by simp)
      | some q =>
        cases h3 : mulOverflow (upper l) (lower r) with
        | none => rw [h1, h2, h3] at h; exact absurd h (by simp)
        | some u =>
          cases h4 : mulOverflow (upper l) (upper r) with
          | none => rw [h1, h2, h3, h4] at h; exact absurd h (by simp)
          | some v =>
            rw [h1, h2, h3, h4] at h
            have hm : m = make (min (min p q) (min u v)) (max (max p q) (max u v)) :=
              (Option.some.inj h).symm
            subst hm
            simp only [wellFormed, empty, make, lower, upper, Prod.mk.injEq]
            unfold minf pinf
            constructor
            · omega
            · intro h
              exfalso
              omega

/-- C19: `l = (2, 5)` and `r = (-1, 1)` are well-formed pairs of machine
integers, but the corner product `mulOverflow 2 (-1)` divides `minf` by
`-1` and `mul l r` has no result, so no well-formed interval is returned;
`lub`, `neg`, `add` and `sub` of the same operands are well-formed. -/
theorem C19_mul_result_missing :
    isInterval (make 2 5) ∧ isInterval (make (-1) 1) ∧
    wellFormed (make 2 5) ∧ wellFormed (make (-1) 1) ∧
    faults (lower (make 2 5)) (lower (make (-1) 1)) ∧
    mul (make 2 5) (make (-1) 1) = none ∧
    wellFormed (lub (make 2 5) (make (-1) 1)) ∧
    wellFormed (neg (make 2 5)) ∧
    wellFormed (add (make 2 5) (make (-1) 1)) ∧
    wellFormed (sub (make 2 5) (make (-1) 1)) := by
  decide

/-! ## Division by a divisor that excludes zero -/

set_option maxRecDepth 100000 in
/-- C18: `l = (7, 7)` and `r = (2, 2)` are well-formed with finite bounds
and `r` is strictly positive, yet `div l r` is `(4, 4)`: the reciprocal is
`0.5`, each of the four products is `3.5`, and `std::round` takes it to `4`.
The machine quotient `7 / 2 = 3` lies below the lower bound. -/
theorem C18_div_excludes_quotient :
    wellFormed (make 7 7) ∧ wellFormed (make 2 2) ∧
    isFinite (lower (make 7 7)) ∧ isFinite (upper (make 7 7)) ∧
    isFinite (lower (make 2 2)) ∧ isFinite (upper (make 2 2)) ∧
    0 < lower (make 2 2) ∧
    lower (make 7 7) ≤ 7 ∧ 7 ≤ upper (make 7 7) ∧
    lower (make 2 2) ≤ 2 ∧ 2 ≤ upper (make 2 2) ∧
    div (make 7 7) (make 2 2) = some (make 4 4) ∧
    Int.tdiv 7 2 = 3 ∧
    ¬ (lower (make 4 4) ≤ Int.tdiv 7 2) := by
  decide

end interval
